import Mathlib

/-!
Shallow embedding of `lib/galaxy/tools/deps/__init__.py` (Galaxy tool
dependency management): the resolution chain of `DependencyManager`
(`_requirements_to_dependencies_dict`, `install_all`) and the cache layer of
`CachedDependencyManager` (`hash_dependencies`, `get_hashed_dependencies_path`,
`build_cache`), together with theorems checking the natural-language
specification against this code.
-/

set_option maxRecDepth 100000

namespace GalaxyDeps

/-- `ToolRequirement` (from `galaxy.tools.deps.requirements`): a named,
optionally versioned requirement of a given type.  The `type` field is kept as
a string, as in the Python source (`'package'`, `'set_environment'`, ...). -/
structure ToolRequirement where
  name : String
  version : Option String
  type : String
deriving DecidableEq, Repr

/-- A resolver's answer for one requirement.  `null` embeds `NullDependency`
(the unresolved sentinel from `galaxy.tools.deps.resolvers`); `resolved` embeds
a real dependency with its `exact`, `dependency_type` and `cacheable`
attributes, which are the only attributes the module under study reads. -/
inductive Dependency where
  | null (name : String) (version : Option String)
  | resolved (name : String) (version : Option String) (exact : Bool)
      (dependency_type : Option String) (cacheable : Bool)
deriving DecidableEq, Repr

/-- `isinstance(dependency, NullDependency)`. -/
def Dependency.isNull : Dependency → Bool
  | .null _ _ => true
  | .resolved _ _ _ _ _ => false

def Dependency.name : Dependency → String
  | .null n _ => n
  | .resolved n _ _ _ _ => n

def Dependency.version : Dependency → Option String
  | .null _ v => v
  | .resolved _ v _ _ _ => v

/-- Modelled from the spec: the resolvers module is not under `src/`; the spec
says the Unresolved variant has `exact = false`. -/
def Dependency.exact : Dependency → Bool
  | .null _ _ => false
  | .resolved _ _ e _ _ => e

/-- Modelled from the spec: the Unresolved variant is not cacheable. -/
def Dependency.cacheable : Dependency → Bool
  | .null _ _ => false
  | .resolved _ _ _ _ c => c

def Dependency.dependency_type : Dependency → Option String
  | .null _ _ => none
  | .resolved _ _ _ t _ => t

/-- The tuple `(dep.name, dep.version, dep.exact, dep.dependency_type)` built
by `CachedDependencyManager.hash_dependencies`. -/
structure DepTuple where
  name : String
  version : Option String
  exact : Bool
  dependency_type : Option String
deriving DecidableEq, Repr

def dependencyTuple (dep : Dependency) : DepTuple :=
  ⟨dep.name, dep.version, dep.exact, dep.dependency_type⟩

/-- An optional string as a character list with `None` below every string. -/
def optStrKey (o : Option String) : WithBot (List Char) :=
  (o.map String.data : Option (List Char))

/-- Lexicographic sort key mirroring Python 2 tuple comparison on
`(str, str-or-None, bool, str-or-None)`: component-wise lexicographic, with
`None` below every string (`WithBot`), `False < True`, and strings compared
lexicographically by character (for UTF-8 encoded strings the byte-wise order
Python 2 uses coincides with this codepoint order). -/
def sortKey (t : DepTuple) : List Char ×ₗ ((WithBot (List Char)) ×ₗ (Bool ×ₗ (WithBot (List Char)))) :=
  toLex (t.name.data, toLex (optStrKey t.version,
    toLex (t.exact, optStrKey t.dependency_type)))

theorem optStrKey_injective : Function.Injective optStrKey := by
  intro a b h
  cases a with
  | none =>
    cases b with
    | none => rfl
    | some b =>
      exact Option.noConfusion (show (none : Option (List Char)) = some b.data from h)
  | some a =>
    cases b with
    | none =>
      exact Option.noConfusion (show (some a.data : Option (List Char)) = none from h)
    | some b =>
      have h2 : (some a.data : Option (List Char)) = some b.data := h
      exact congrArg some (String.toList_inj.mp (Option.some_inj.mp h2))

theorem sortKey_injective : Function.Injective sortKey := by
  intro a b h
  have h' : (a.name.data, (optStrKey a.version, (a.exact, optStrKey a.dependency_type)))
      = (b.name.data, (optStrKey b.version, (b.exact, optStrKey b.dependency_type))) := h
  injection h' with h1 hr
  injection hr with h2 hr2
  injection hr2 with h3 h4
  have e1 : a.name = b.name := String.toList_inj.mp h1
  have e2 : a.version = b.version := optStrKey_injective h2
  have e4 : a.dependency_type = b.dependency_type := optStrKey_injective h4
  have : DepTuple.mk a.name a.version a.exact a.dependency_type =
      DepTuple.mk b.name b.version b.exact b.dependency_type := by
    rw [e1, e2, h3, e4]
  exact this

instance : LinearOrder DepTuple := LinearOrder.lift' sortKey sortKey_injective

/-- Python's `sorted` on the tuple list: the unique `≤`-sorted permutation. -/
def sortTuples (l : List DepTuple) : List DepTuple :=
  List.insertionSort (· ≤ ·) l

theorem sortTuples_perm (l : List DepTuple) : (sortTuples l).Perm l :=
  List.perm_insertionSort _ l

theorem sortTuples_eq_of_perm {l l' : List DepTuple} (h : l.Perm l') :
    sortTuples l = sortTuples l' :=
  List.eq_of_perm_of_sorted
    ((sortTuples_perm l).trans (h.trans (sortTuples_perm l').symm))
    (List.sorted_insertionSort _ l) (List.sorted_insertionSort _ l')

/-- JSON string escaping as done by `json.dumps` for the characters that can
occur here (backslash and double quote; other characters pass through). -/
def jsonEscapeChar (c : Char) : String :=
  if c = '\\' then "\\\\" else if c = '\"' then "\\\"" else String.singleton c

def jsonString (s : String) : String :=
  "\"" ++ String.join (s.data.map jsonEscapeChar) ++ "\""

def jsonOptString : Option String → String
  | none => "null"
  | some s => jsonString s

def jsonBool : Bool → String
  | true => "true"
  | false => "false"

/-- `json.dumps` of one `(name, version, exact, dependency_type)` tuple:
a JSON array with `", "` item separators (the `json.dumps` default). -/
def jsonTuple (t : DepTuple) : String :=
  "[" ++ jsonString t.name ++ ", " ++ jsonOptString t.version ++ ", " ++
    jsonBool t.exact ++ ", " ++ jsonOptString t.dependency_type ++ "]"

/-- `json.dumps` of the sorted tuple list. -/
def jsonDumpsTuples (l : List DepTuple) : String :=
  "[" ++ String.intercalate ", " (l.map jsonTuple) ++ "]"

def hexChar (n : Nat) : Char :=
  if n = 0 then '0' else if n = 1 then '1' else if n = 2 then '2'
  else if n = 3 then '3' else if n = 4 then '4' else if n = 5 then '5'
  else if n = 6 then '6' else if n = 7 then '7' else if n = 8 then '8'
  else if n = 9 then '9' else if n = 10 then 'a' else if n = 11 then 'b'
  else if n = 12 then 'c' else if n = 13 then 'd' else if n = 14 then 'e'
  else 'f'

/-- Fixed-width (16 hex digit, most significant first) rendering of a number
below `2 ^ 64`. -/
def hexDigest (n : Nat) : String :=
  String.mk ((List.range 16).map (fun i => hexChar (n / 16 ^ (15 - i) % 16)))

/-- Modelled from the spec: `galaxy.util.hash_util.new_secure_hash` is not
under `src/`.  The spec describes it as a pure, deterministic one-way secure
hash of its input string, of which the caller keeps the first 8 characters.
Modelled as a deterministic digest (an FNV-style fold over the characters,
rendered in hex most-significant-digit first, so every input character
influences the leading characters of the digest). -/
def new_secure_hash (s : String) : String :=
  hexDigest (s.data.foldl
    (fun h c => (h * 1099511628211 + c.toNat + 1) % 2 ^ 64) 14695981039346656037)

/-- `CachedDependencyManager.hash_dependencies`: build the
`(name, version, exact, dependency_type)` tuple for every dependency in the
input list (no filtering), sort, `json.dumps`, hash, keep the first 8
characters. -/
def hash_dependencies (resolved_dependencies : List Dependency) : String :=
  let tuples := resolved_dependencies.map dependencyTuple
  let hash_str := jsonDumpsTuples (sortTuples tuples)
  String.mk ((new_secure_hash hash_str).data.take 8)

/-- `CachedDependencyManager.get_hashed_dependencies_path`:
`os.path.abspath(os.path.join(tool_dependency_cache_dir, req_hashes))`.
`abspath` is modelled as the identity (the cache dir is an absolute path). -/
def get_hashed_dependencies_path (tool_dependency_cache_dir : String)
    (resolved_dependencies : List Dependency) : String :=
  tool_dependency_cache_dir ++ "/" ++ hash_dependencies resolved_dependencies

/-- A dependency resolver as seen by this module.  `resolve` embeds the
mandatory `resolver.resolve(name, version, type, **kwds)`; `resolve_all`
embeds the optional bulk capability (`none` when `hasattr(resolver,
"resolve_all")` is false; a Python return of `None` or `[]` is modelled as the
empty list, both being falsy in `if dependencies:`); `get_targets` and
`install_all` embed the optional bulk-install capability pair (targets are
kept abstract as strings). -/
structure Resolver where
  resolve : String → Option String → String → Dependency
  resolve_all : Option (List ToolRequirement → List Dependency) := none
  get_targets : Option (List ToolRequirement → List String) := none
  install_all : Option (List String → Bool) := none

/-! ### The ordered result mapping (`OrderedDict`)

The result mapping is an association list in insertion order; assigning to an
existing key replaces its value in place (as in `OrderedDict`), assigning a
fresh key appends. -/

def odMem (k : ToolRequirement) (m : List (ToolRequirement × Dependency)) : Bool :=
  m.any (fun p => p.1 = k)

def odLookup (k : ToolRequirement) (m : List (ToolRequirement × Dependency)) :
    Option Dependency :=
  (m.find? (fun p => p.1 = k)).map (·.2)

def odInsert (m : List (ToolRequirement × Dependency)) (k : ToolRequirement)
    (v : Dependency) : List (ToolRequirement × Dependency) :=
  if odMem k m then m.map (fun p => if p.1 = k then (k, v) else p) else m ++ [(k, v)]

/-- State threaded through `_requirements_to_dependencies_dict`: the ordered
result mapping plus an instrumentation log of every `resolver.resolve` call
made, as `(resolver index, requirement)` in call order. -/
structure ResolveState where
  mapping : List (ToolRequirement × Dependency)
  calls : List (Nat × ToolRequirement)
deriving DecidableEq, Repr

/-- The `resolvable_requirements` filter: requirements whose type is in
`['package', 'set_environment']`; others are logged and dropped. -/
def resolvable_requirements (requirements : List ToolRequirement) :
    List ToolRequirement :=
  requirements.filter (fun r => r.type == "package" || r.type == "set_environment")

/-- The body of the inner `for requirement in resolvable_requirements:` loop
of `_requirements_to_dependencies_dict`, for resolver number `i`:
skip a requirement already in the mapping; call `resolver.resolve`; under
`require_exact` discard an inexact answer; insert a non-`NullDependency`
answer. -/
def resolveRequirement (require_exact : Bool) (i : Nat) (resolver : Resolver)
    (requirement : ToolRequirement) (st : ResolveState) : ResolveState :=
  if odMem requirement st.mapping then st
  else if requirement.type == "package" || requirement.type == "set_environment" then
    if require_exact &&
        !(resolver.resolve requirement.name requirement.version requirement.type).exact then
      { st with calls := st.calls ++ [(i, requirement)] }
    else if (resolver.resolve requirement.name requirement.version requirement.type).isNull then
      { st with calls := st.calls ++ [(i, requirement)] }
    else
      { mapping := odInsert st.mapping requirement
          (resolver.resolve requirement.name requirement.version requirement.type),
        calls := st.calls ++ [(i, requirement)] }
  else st

/-- The inner `for requirement in resolvable_requirements:` loop itself. -/
def individualPass (require_exact : Bool) (i : Nat) (resolver : Resolver) :
    List ToolRequirement → ResolveState → ResolveState
  | [], st => st
  | requirement :: rest, st =>
    individualPass require_exact i resolver rest
      (resolveRequirement require_exact i resolver requirement st)

/-- The `if index is not None and i != index: continue` guard of the outer
loop. -/
def skipResolver (index : Option Nat) (i : Nat) : Bool :=
  match index with
  | some j => decide (i ≠ j)
  | none => false

/-- The outer `for i, resolver in enumerate(self.dependency_resolvers):` loop.
`index` embeds `kwds.get('index')`.  `.error` embeds the
`assert len(dependencies) == len(resolvable_requirements)` failure; `.ok`
carries the final state at a `break` or at loop exhaustion. -/
def chainWalk (index : Option Nat) (require_exact : Bool)
    (resolvable : List ToolRequirement) :
    List (Nat × Resolver) → ResolveState → Except String ResolveState
  | [], st => .ok st
  | (i, resolver) :: rest, st =>
    if skipResolver index i then
      chainWalk index require_exact resolvable rest st
    else if st.mapping.length = resolvable.length then
      .ok st
    else
      match (if st.mapping.length = 0 then resolver.resolve_all else none) with
      | some bulk =>
        let dependencies := bulk resolvable
        if dependencies.isEmpty then
          chainWalk index require_exact resolvable rest
            (individualPass require_exact i resolver resolvable st)
        else if dependencies.length = resolvable.length then
          .ok { st with
            mapping := (resolvable.zip dependencies).foldl
              (fun m p => odInsert m p.1 p.2) st.mapping }
        else
          .error "assert len(dependencies) == len(resolvable_requirements)"
      | none =>
        chainWalk index require_exact resolvable rest
          (individualPass require_exact i resolver resolvable st)

/-- `DependencyManager._requirements_to_dependencies_dict(requirements,
index=index, exact=require_exact)`. -/
def requirements_to_dependencies_dict (dependency_resolvers : List Resolver)
    (requirements : List ToolRequirement) (index : Option Nat)
    (require_exact : Bool) : Except String ResolveState :=
  chainWalk index require_exact (resolvable_requirements requirements)
    dependency_resolvers.enum ⟨[], []⟩

/-- `DependencyManager.install_all(requirements)`: scan resolvers in order;
for every resolver with both `get_targets` and `install_all`, compute targets
from the full requirement list and attempt installation; return `True` on the
first success, `False` when the scan ends. -/
def install_all (dependency_resolvers : List Resolver)
    (requirements : List ToolRequirement) : Bool :=
  match dependency_resolvers with
  | [] => false
  | resolver :: rest =>
    match resolver.get_targets, resolver.install_all with
    | some gt, some ia =>
      if ia (gt requirements) then true else install_all rest requirements
    | _, _ => install_all rest requirements

/-! ### The dependency cache (`CachedDependencyManager.build_cache`) -/

/-- The filesystem as this module observes it: the set of existing cache
directories, each with its content (the list of materialized dependency
names, in materialization order). -/
abbrev FileSystem := List (String × List String)

def fsExists (fs : FileSystem) (path : String) : Bool :=
  fs.any (fun p => p.1 = path)

/-- `shutil.rmtree` (modelled as always succeeding; a deletion failure is
re-raised by the code and is outside the claims settled here). -/
def fsRmtree (fs : FileSystem) (path : String) : FileSystem :=
  fs.filter (fun p => p.1 ≠ path)

/-- One action `build_cache` performs against the world. -/
inductive CacheAction where
  | rmtree (path : String)
  | materialize (depName : String) (path : String)
deriving DecidableEq, Repr

/-- Modelled from the spec: `dep.build_cache(hashed_dependencies_dir)` is
implemented by the resolver plugins, which are not under `src/`; the spec says
a cacheable dependency materializes its environment into the directory.
Modelled as recording the dependency's name inside the directory (creating the
directory if absent). -/
def materializeInto (fs : FileSystem) (dep : Dependency) (dir : String) :
    FileSystem :=
  if fsExists fs dir then
    fs.map (fun p => if p.1 = dir then (p.1, p.2 ++ [dep.name]) else p)
  else fs ++ [(dir, [dep.name])]

/-- `CachedDependencyManager.build_cache(requirements, **kwds)`: resolve, keep
the cacheable dependencies of the result mapping in mapping order, compute the
hashed directory; if it exists and `force_rebuild` is false, return without
touching anything; if it exists and `force_rebuild` is true, delete it; then
materialize every cacheable dependency into it.  Returns the resulting
filesystem together with the log of actions performed. -/
def build_cache (dependency_resolvers : List Resolver)
    (tool_dependency_cache_dir : String) (requirements : List ToolRequirement)
    (index : Option Nat) (require_exact : Bool) (force_rebuild : Bool)
    (fs : FileSystem) : Except String (FileSystem × List CacheAction) :=
  match requirements_to_dependencies_dict dependency_resolvers requirements
      index require_exact with
  | .error e => .error e
  | .ok st =>
    let resolved_dependencies := st.mapping.map (fun p => p.2)
    let cacheable_dependencies := resolved_dependencies.filter
      (fun dep => dep.cacheable)
    let hashed_dependencies_dir := get_hashed_dependencies_path
      tool_dependency_cache_dir cacheable_dependencies
    let build : FileSystem → List CacheAction →
        FileSystem × List CacheAction := fun fs acts =>
      cacheable_dependencies.foldl
        (fun acc dep =>
          (materializeInto acc.1 dep hashed_dependencies_dir,
            acc.2 ++ [.materialize dep.name hashed_dependencies_dir]))
        (fs, acts)
    if fsExists fs hashed_dependencies_dir then
      if force_rebuild then
        .ok (build (fsRmtree fs hashed_dependencies_dir)
          [.rmtree hashed_dependencies_dir])
      else
        .ok (fs, [])
    else
      .ok (build fs [])

/-! ### Lemmas about the ordered mapping -/

@[simp] theorem odMem_nil (k : ToolRequirement) : odMem k [] = false := rfl

@[simp] theorem odMem_cons (k : ToolRequirement) (p : ToolRequirement × Dependency)
    (m : List (ToolRequirement × Dependency)) :
    odMem k (p :: m) = (decide (p.1 = k) || odMem k m) := by
  simp [odMem]

@[simp] theorem odLookup_nil (k : ToolRequirement) : odLookup k [] = none := rfl

@[simp] theorem odLookup_cons (k : ToolRequirement) (p : ToolRequirement × Dependency)
    (m : List (ToolRequirement × Dependency)) :
    odLookup k (p :: m) = if p.1 = k then some p.2 else odLookup k m := by
  by_cases h : p.1 = k
  · simp [odLookup, List.find?_cons_of_pos, h]
  · simp [odLookup, List.find?_cons_of_neg, h]

theorem odMem_append (k : ToolRequirement) (m n : List (ToolRequirement × Dependency)) :
    odMem k (m ++ n) = (odMem k m || odMem k n) := by
  simp [odMem, List.any_append]

theorem odLookup_append_of_mem {k : ToolRequirement}
    {m : List (ToolRequirement × Dependency)} (n : List (ToolRequirement × Dependency))
    (h : odMem k m = true) : odLookup k (m ++ n) = odLookup k m := by
  induction m with
  | nil => simp at h
  | cons p m ih =>
    by_cases hp : p.1 = k
    · simp [hp]
    · simp only [odMem_cons, hp, decide_eq_true_eq, Bool.false_or] at h
      simp [hp, ih h]

theorem odInsert_of_not_mem {k : ToolRequirement}
    {m : List (ToolRequirement × Dependency)} (v : Dependency)
    (h : odMem k m = false) : odInsert m k v = m ++ [(k, v)] := by
  simp [odInsert, h]

theorem odMem_map_replace {a k : ToolRequirement}
    (m : List (ToolRequirement × Dependency)) (v : Dependency) :
    odMem a (m.map (fun p => if p.1 = k then (k, v) else p)) = odMem a m := by
  induction m with
  | nil => simp
  | cons p m ih =>
    by_cases hp : p.1 = k
    · simp only [List.map_cons, hp, if_true, odMem_cons, ih]
    · simp [hp, ih]

theorem odLookup_map_replace {a k : ToolRequirement}
    (m : List (ToolRequirement × Dependency)) (v : Dependency) (h : a ≠ k) :
    odLookup a (m.map (fun p => if p.1 = k then (k, v) else p)) = odLookup a m := by
  induction m with
  | nil => simp
  | cons p m ih =>
    by_cases hp : p.1 = k
    · simp only [List.map_cons, hp, if_true, odLookup_cons, ih]
      simp [Ne.symm h]
    · simp only [List.map_cons, hp, if_false, odLookup_cons, ih]

theorem odMem_odInsert_of_ne {a k : ToolRequirement}
    (m : List (ToolRequirement × Dependency)) (v : Dependency) (h : a ≠ k) :
    odMem a (odInsert m k v) = odMem a m := by
  by_cases hm : odMem k m = true
  · simp only [odInsert, hm, if_true]
    exact odMem_map_replace m v
  · rw [odInsert_of_not_mem v (by simpa using hm), odMem_append]
    simp [Ne.symm h]

theorem odLookup_odInsert_of_ne {a k : ToolRequirement}
    (m : List (ToolRequirement × Dependency)) (v : Dependency) (h : a ≠ k) :
    odLookup a (odInsert m k v) = odLookup a m := by
  by_cases hm : odMem k m = true
  · simp only [odInsert, hm, if_true]
    exact odLookup_map_replace m v h
  · rw [odInsert_of_not_mem v (by simpa using hm)]
    induction m with
    | nil => simp [Ne.symm h]
    | cons p m ih =>
      by_cases hp : p.1 = a <;> simp_all

theorem odLookup_append_single {k : ToolRequirement}
    {m : List (ToolRequirement × Dependency)} (v : Dependency)
    (h : odMem k m = false) : odLookup k (m ++ [(k, v)]) = some v := by
  induction m with
  | nil => simp
  | cons p m ih =>
    simp only [odMem_cons, Bool.or_eq_false_iff, decide_eq_false_iff_not] at h
    simp [h.1, ih h.2]

theorem odMem_keys (k : ToolRequirement) (m : List (ToolRequirement × Dependency)) :
    odMem k m = true ↔ k ∈ m.map Prod.fst := by
  induction m with
  | nil => simp
  | cons p m ih =>
    simp only [odMem_cons, List.map_cons, List.mem_cons, Bool.or_eq_true,
      decide_eq_true_eq, ih]
    constructor
    · rintro (h | h)
      exacts [Or.inl h.symm, Or.inr h]
    · rintro (h | h)
      exacts [Or.inl h.symm, Or.inr h]

theorem odMem_odInsert {a k : ToolRequirement}
    {m : List (ToolRequirement × Dependency)} {v : Dependency}
    (h : odMem a (odInsert m k v) = true) : odMem a m = true ∨ a = k := by
  by_cases hak : a = k
  · exact Or.inr hak
  · rw [odMem_odInsert_of_ne m v hak] at h
    exact Or.inl h

/-! ### Lemmas about one step of the individual-resolution loop -/

theorem resolveRequirement_of_mem (re : Bool) (i : Nat) (r : Resolver)
    {q : ToolRequirement} {st : ResolveState} (h : odMem q st.mapping = true) :
    resolveRequirement re i r q st = st := by
  simp [resolveRequirement, h]

theorem resolveRequirement_mapping_cases (re : Bool) (i : Nat) (r : Resolver)
    (q : ToolRequirement) (st : ResolveState) :
    (resolveRequirement re i r q st).mapping = st.mapping ∨
      (odMem q st.mapping = false ∧
        (resolveRequirement re i r q st).mapping =
          st.mapping ++ [(q, r.resolve q.name q.version q.type)]) := by
  unfold resolveRequirement
  split_ifs with h1 h2 h3 h4
  · exact Or.inl rfl
  · exact Or.inl rfl
  · exact Or.inl rfl
  · refine Or.inr ⟨by simpa using h1, ?_⟩
    simp [odInsert_of_not_mem _ (by simpa using h1)]
  · exact Or.inl rfl

theorem resolveRequirement_mapping (re : Bool) (i : Nat) (r : Resolver)
    (q : ToolRequirement) (st : ResolveState) :
    ∃ new, (resolveRequirement re i r q st).mapping = st.mapping ++ new ∧
      (new.map Prod.fst).Sublist [q] := by
  rcases resolveRequirement_mapping_cases re i r q st with h | ⟨-, h⟩
  · exact ⟨[], by simp [h]⟩
  · exact ⟨[(q, r.resolve q.name q.version q.type)], h, by simp⟩

theorem resolveRequirement_calls (re : Bool) (i : Nat) (r : Resolver)
    (q : ToolRequirement) (st : ResolveState) :
    ∃ nc, (resolveRequirement re i r q st).calls = st.calls ++ nc ∧
      ∀ c ∈ nc, c.1 = i ∧ c.2 = q ∧ odMem q st.mapping = false := by
  unfold resolveRequirement
  split_ifs with h1 h2 h3 h4
  · exact ⟨[], by simp⟩
  · refine ⟨[(i, q)], rfl, ?_⟩
    intro c hc
    simp only [List.mem_singleton] at hc
    subst hc
    exact ⟨rfl, rfl, by simpa using h1⟩
  · refine ⟨[(i, q)], rfl, ?_⟩
    intro c hc
    simp only [List.mem_singleton] at hc
    subst hc
    exact ⟨rfl, rfl, by simpa using h1⟩
  · refine ⟨[(i, q)], rfl, ?_⟩
    intro c hc
    simp only [List.mem_singleton] at hc
    subst hc
    exact ⟨rfl, rfl, by simpa using h1⟩
  · exact ⟨[], by simp⟩

theorem resolveRequirement_mem_ne (re : Bool) (i : Nat) (r : Resolver)
    {a q : ToolRequirement} (st : ResolveState) (h : a ≠ q) :
    odMem a (resolveRequirement re i r q st).mapping = odMem a st.mapping := by
  unfold resolveRequirement
  split_ifs with h1 h2 h3 h4 <;> simp [odMem_odInsert_of_ne _ _ h]

theorem resolveRequirement_call_of_not_mem (re : Bool) (i : Nat) (r : Resolver)
    {q : ToolRequirement} (st : ResolveState) (hm : odMem q st.mapping = false)
    (ht : (q.type == "package" || q.type == "set_environment") = true) :
    (i, q) ∈ (resolveRequirement re i r q st).calls := by
  unfold resolveRequirement
  rw [hm]
  simp only [Bool.false_eq_true, if_false, ht, if_true]
  split_ifs <;> simp

theorem resolveRequirement_exact_skip (i : Nat) (r : Resolver)
    {q : ToolRequirement} (st : ResolveState)
    (he : (r.resolve q.name q.version q.type).exact = false) :
    (resolveRequirement true i r q st).mapping = st.mapping := by
  unfold resolveRequirement
  split_ifs with h1 h2 h3 h4
  · rfl
  · rfl
  · rfl
  · exact absurd (by simp [he]) h3
  · rfl

theorem resolveRequirement_insert (re : Bool) (i : Nat) (r : Resolver)
    {q : ToolRequirement} (st : ResolveState) (hm : odMem q st.mapping = false)
    (ht : (q.type == "package" || q.type == "set_environment") = true)
    (hx : (re && !(r.resolve q.name q.version q.type).exact) = false)
    (hn : (r.resolve q.name q.version q.type).isNull = false) :
    resolveRequirement re i r q st =
      { mapping := st.mapping ++ [(q, r.resolve q.name q.version q.type)],
        calls := st.calls ++ [(i, q)] } := by
  unfold resolveRequirement
  rw [hm]
  simp only [Bool.false_eq_true, if_false, ht, if_true, hx, hn]
  simp [odInsert_of_not_mem _ hm]

/-! ### Lemmas about the individual-resolution loop -/

theorem individualPass_mapping (re : Bool) (i : Nat) (r : Resolver)
    (l : List ToolRequirement) (st : ResolveState) :
    ∃ new, (individualPass re i r l st).mapping = st.mapping ++ new ∧
      (new.map Prod.fst).Sublist l := by
  induction l generalizing st with
  | nil => exact ⟨[], by simp [individualPass]⟩
  | cons q l ih =>
    obtain ⟨n0, e0, s0⟩ := resolveRequirement_mapping re i r q st
    obtain ⟨n1, e1, s1⟩ := ih (resolveRequirement re i r q st)
    refine ⟨n0 ++ n1, ?_, ?_⟩
    · rw [individualPass, e1, e0, List.append_assoc]
    · rw [List.map_append]
      exact List.Sublist.append s0 s1

theorem individualPass_calls (re : Bool) (i : Nat) (r : Resolver)
    (l : List ToolRequirement) (st : ResolveState) :
    ∃ nc, (individualPass re i r l st).calls = st.calls ++ nc ∧
      ∀ c ∈ nc, c.1 = i ∧ c.2 ∈ l ∧ odMem c.2 st.mapping = false := by
  induction l generalizing st with
  | nil => exact ⟨[], by simp [individualPass]⟩
  | cons q l ih =>
    obtain ⟨n0, e0, p0⟩ := resolveRequirement_calls re i r q st
    obtain ⟨n1, e1, p1⟩ := ih (resolveRequirement re i r q st)
    obtain ⟨m0, em, -⟩ := resolveRequirement_mapping re i r q st
    refine ⟨n0 ++ n1, ?_, ?_⟩
    · rw [individualPass, e1, e0, List.append_assoc]
    · intro c hc
      rcases List.mem_append.mp hc with hc | hc
      · obtain ⟨c1, c2, c3⟩ := p0 c hc
        exact ⟨c1, by simp [c2], by rw [c2]; exact c3⟩
      · obtain ⟨c1, c2, c3⟩ := p1 c hc
        refine ⟨c1, by simp [c2], ?_⟩
        rw [em, odMem_append] at c3
        simpa using (Bool.or_eq_false_iff.mp c3).1

theorem individualPass_lookup_of_mem (re : Bool) (i : Nat) (r : Resolver)
    (l : List ToolRequirement) (st : ResolveState) {a : ToolRequirement}
    (h : odMem a st.mapping = true) :
    odLookup a (individualPass re i r l st).mapping = odLookup a st.mapping ∧
      odMem a (individualPass re i r l st).mapping = true := by
  obtain ⟨new, e, -⟩ := individualPass_mapping re i r l st
  rw [e]
  exact ⟨odLookup_append_of_mem new h, by simp [odMem_append, h]⟩

theorem individualPass_no_new_call_of_mem (re : Bool) (i : Nat) (r : Resolver)
    (l : List ToolRequirement) (st : ResolveState) {a : ToolRequirement} {j : Nat}
    (h : odMem a st.mapping = true)
    (hc : (j, a) ∈ (individualPass re i r l st).calls) : (j, a) ∈ st.calls := by
  obtain ⟨nc, e, p⟩ := individualPass_calls re i r l st
  rw [e] at hc
  rcases List.mem_append.mp hc with hc | hc
  · exact hc
  · obtain ⟨-, -, c3⟩ := p _ hc
    have c3' : odMem a st.mapping = false := c3
    rw [h] at c3'
    cases c3'

theorem individualPass_mem_of_mem (re : Bool) (i : Nat) (r : Resolver)
    (l : List ToolRequirement) (st : ResolveState) {a : ToolRequirement}
    (h : odMem a st.mapping = true) :
    odMem a (individualPass re i r l st).mapping = true :=
  (individualPass_lookup_of_mem re i r l st h).2

theorem individualPass_exact_unresolved (i : Nat) (r : Resolver)
    (l : List ToolRequirement) (st : ResolveState) {a : ToolRequirement}
    (he : (r.resolve a.name a.version a.type).exact = false)
    (hm : odMem a st.mapping = false) :
    odMem a (individualPass true i r l st).mapping = false := by
  induction l generalizing st with
  | nil => simpa [individualPass]
  | cons q l ih =>
    rw [individualPass]
    apply ih
    by_cases hqa : q = a
    · subst hqa
      rw [resolveRequirement_exact_skip i r st he]
      exact hm
    · rw [resolveRequirement_mem_ne true i r st (Ne.symm hqa)]
      exact hm

theorem individualPass_covers (re : Bool) (i : Nat) (r : Resolver)
    (l : List ToolRequirement) (st : ResolveState) {x : ToolRequirement}
    (hx : x ∈ l) (ht : (x.type == "package" || x.type == "set_environment") = true) :
    odMem x st.mapping = true ∨ (i, x) ∈ (individualPass re i r l st).calls := by
  induction l generalizing st with
  | nil => cases hx
  | cons q l ih =>
    rw [individualPass]
    by_cases hqx : q = x
    · subst hqx
      by_cases hm : odMem q st.mapping = true
      · exact Or.inl hm
      · right
        have hcall := resolveRequirement_call_of_not_mem re i r st
          (by simpa using hm) ht
        obtain ⟨nc, e, -⟩ := individualPass_calls re i r l
          (resolveRequirement re i r q st)
        rw [e]
        exact List.mem_append.mpr (Or.inl hcall)
    · have hx' : x ∈ l := by
        rcases List.mem_cons.mp hx with h | h
        · exact absurd h.symm hqx
        · exact h
      rcases ih (resolveRequirement re i r q st) hx' with hmem1 | hcall1
      · rw [resolveRequirement_mem_ne re i r st (fun h => hqx h.symm)] at hmem1
        exact Or.inl hmem1
      · exact Or.inr hcall1

theorem individualPass_resolves (re : Bool) (i : Nat) (r : Resolver)
    (l : List ToolRequirement) (st : ResolveState) {a : ToolRequirement}
    (hm : odMem a st.mapping = false) (ha : a ∈ l)
    (ht : (a.type == "package" || a.type == "set_environment") = true)
    (hx : (re && !(r.resolve a.name a.version a.type).exact) = false)
    (hn : (r.resolve a.name a.version a.type).isNull = false) :
    odLookup a (individualPass re i r l st).mapping =
      some (r.resolve a.name a.version a.type) := by
  induction l generalizing st with
  | nil => cases ha
  | cons q l ih =>
    rw [individualPass]
    by_cases hqa : q = a
    · subst hqa
      rw [resolveRequirement_insert re i r st hm ht hx hn]
      have hmem : odMem q
          (st.mapping ++ [(q, r.resolve q.name q.version q.type)]) = true := by
        simp [odMem_append]
      have lk := individualPass_lookup_of_mem re i r l
        ⟨st.mapping ++ [(q, r.resolve q.name q.version q.type)],
          st.calls ++ [(i, q)]⟩ hmem
      rw [lk.1]
      exact odLookup_append_single _ hm
    · have ha' : a ∈ l := by
        rcases List.mem_cons.mp ha with h | h
        · exact absurd h (fun h' => hqa h'.symm)
        · exact h
      have hm' : odMem a (resolveRequirement re i r q st).mapping = false := by
        rw [resolveRequirement_mem_ne re i r st (Ne.symm hqa)]
        exact hm
      exact ih _ hm' ha'

theorem resolveRequirement_keys_nodup (re : Bool) (i : Nat) (r : Resolver)
    (q : ToolRequirement) (st : ResolveState)
    (h : (st.mapping.map Prod.fst).Nodup) :
    ((resolveRequirement re i r q st).mapping.map Prod.fst).Nodup := by
  rcases resolveRequirement_mapping_cases re i r q st with e | ⟨hm, e⟩
  · rw [e]; exact h
  · rw [e, List.map_append]
    simp only [List.map_cons, List.map_nil]
    rw [List.nodup_append]
    refine ⟨h, List.nodup_singleton q, ?_⟩
    intro x hxk hxq
    simp only [List.mem_singleton] at hxq
    subst hxq
    rw [(odMem_keys x st.mapping).mpr hxk] at hm
    cases hm

theorem individualPass_keys_nodup (re : Bool) (i : Nat) (r : Resolver)
    (l : List ToolRequirement) (st : ResolveState)
    (h : (st.mapping.map Prod.fst).Nodup) :
    ((individualPass re i r l st).mapping.map Prod.fst).Nodup := by
  induction l generalizing st with
  | nil => exact h
  | cons q l ih =>
    rw [individualPass]
    exact ih _ (resolveRequirement_keys_nodup re i r q st h)

theorem individualPass_mem_subset (re : Bool) (i : Nat) (r : Resolver)
    (l : List ToolRequirement) (st : ResolveState) {k : ToolRequirement}
    (h : odMem k (individualPass re i r l st).mapping = true) :
    odMem k st.mapping = true ∨ k ∈ l := by
  obtain ⟨new, e, s⟩ := individualPass_mapping re i r l st
  rw [e, odMem_append] at h
  rcases Bool.or_eq_true_iff.mp h with h | h
  · exact Or.inl h
  · exact Or.inr (s.subset ((odMem_keys k new).mp h))

/-- While some resolvable requirement is still unresolved, the shortcut
`len(requirement_to_dependency) == len(resolvable_requirements)` cannot fire:
the mapping's keys are distinct members of the resolvable list that misses
`A`. -/
theorem length_ne_of_unresolved {st : ResolveState} {l : List ToolRequirement}
    {A : ToolRequirement} (hnd : (st.mapping.map Prod.fst).Nodup)
    (hsub : ∀ k, odMem k st.mapping = true → k ∈ l)
    (hA : A ∈ l) (hAm : odMem A st.mapping = false) :
    st.mapping.length ≠ l.length := by
  intro hlen
  have hnotin : A ∉ st.mapping.map Prod.fst := by
    intro h
    rw [(odMem_keys A st.mapping).mpr h] at hAm
    cases hAm
  have hnd2 : (A :: st.mapping.map Prod.fst).Nodup := List.nodup_cons.mpr ⟨hnotin, hnd⟩
  have hsub2 : (A :: st.mapping.map Prod.fst) ⊆ l := by
    intro x hx
    rcases List.mem_cons.mp hx with rfl | hx
    · exact hA
    · exact hsub x ((odMem_keys x st.mapping).mpr hx)
  have hle := (List.subperm_of_subset hnd2 hsub2).length_le
  simp only [List.length_cons, List.length_map, hlen] at hle
  omega

/-! ### Unfolding equations for the outer resolver loop -/

theorem chainWalk_nil (idx : Option Nat) (re : Bool) (l : List ToolRequirement)
    (st : ResolveState) : chainWalk idx re l [] st = .ok st := rfl

theorem chainWalk_cons (idx : Option Nat) (re : Bool) (l : List ToolRequirement)
    (i : Nat) (resolver : Resolver) (rest : List (Nat × Resolver))
    (st : ResolveState) :
    chainWalk idx re l ((i, resolver) :: rest) st =
      if skipResolver idx i then
        chainWalk idx re l rest st
      else if st.mapping.length = l.length then .ok st
      else
        match (if st.mapping.length = 0 then resolver.resolve_all else none) with
        | some bulk =>
          if (bulk l).isEmpty then
            chainWalk idx re l rest (individualPass re i resolver l st)
          else if (bulk l).length = l.length then
            .ok { st with
              mapping := (l.zip (bulk l)).foldl
                (fun m p => odInsert m p.1 p.2) st.mapping }
          else .error "assert len(dependencies) == len(resolvable_requirements)"
        | none => chainWalk idx re l rest (individualPass re i resolver l st) := rfl

theorem chainWalk_cons_skip {idx : Option Nat} {i : Nat} (re : Bool)
    (l : List ToolRequirement) (resolver : Resolver)
    (rest : List (Nat × Resolver)) (st : ResolveState)
    (h : skipResolver idx i = true) :
    chainWalk idx re l ((i, resolver) :: rest) st = chainWalk idx re l rest st := by
  rw [chainWalk_cons, if_pos h]

theorem chainWalk_cons_short {idx : Option Nat} {i : Nat} (re : Bool)
    {l : List ToolRequirement} (resolver : Resolver)
    (rest : List (Nat × Resolver)) {st : ResolveState}
    (hskip : ¬skipResolver idx i = true)
    (h : st.mapping.length = l.length) :
    chainWalk idx re l ((i, resolver) :: rest) st = .ok st := by
  rw [chainWalk_cons, if_neg hskip, if_pos h]

theorem chainWalk_cons_individual {idx : Option Nat} {i : Nat} (re : Bool)
    {l : List ToolRequirement} {resolver : Resolver}
    (rest : List (Nat × Resolver)) {st : ResolveState}
    (hskip : ¬skipResolver idx i = true)
    (hshort : ¬st.mapping.length = l.length)
    (hb : (if st.mapping.length = 0 then resolver.resolve_all else none) = none) :
    chainWalk idx re l ((i, resolver) :: rest) st =
      chainWalk idx re l rest (individualPass re i resolver l st) := by
  rw [chainWalk_cons, if_neg hskip, if_neg hshort, hb]

theorem chainWalk_cons_bulk_empty {idx : Option Nat} {i : Nat} (re : Bool)
    {l : List ToolRequirement} {resolver : Resolver}
    (rest : List (Nat × Resolver)) {st : ResolveState}
    {f : List ToolRequirement → List Dependency}
    (hskip : ¬skipResolver idx i = true)
    (hshort : ¬st.mapping.length = l.length)
    (hb : (if st.mapping.length = 0 then resolver.resolve_all else none) = some f)
    (he : (f l).isEmpty = true) :
    chainWalk idx re l ((i, resolver) :: rest) st =
      chainWalk idx re l rest (individualPass re i resolver l st) := by
  rw [chainWalk_cons, if_neg hskip, if_neg hshort, hb]
  show (if (f l).isEmpty then _ else _) = _
  rw [he]
  rfl

theorem chainWalk_cons_bulk_zip {idx : Option Nat} {i : Nat} (re : Bool)
    {l : List ToolRequirement} {resolver : Resolver}
    (rest : List (Nat × Resolver)) {st : ResolveState}
    {f : List ToolRequirement → List Dependency}
    (hskip : ¬skipResolver idx i = true)
    (hshort : ¬st.mapping.length = l.length)
    (hb : (if st.mapping.length = 0 then resolver.resolve_all else none) = some f)
    (he : (f l).isEmpty = false) (hlen : (f l).length = l.length) :
    chainWalk idx re l ((i, resolver) :: rest) st =
      .ok { st with
        mapping := (l.zip (f l)).foldl (fun m p => odInsert m p.1 p.2) st.mapping } := by
  rw [chainWalk_cons, if_neg hskip, if_neg hshort, hb]
  show (if (f l).isEmpty then _ else _) = _
  rw [he]
  show (if (f l).length = l.length then _ else _) = _
  rw [if_pos hlen]

theorem chainWalk_cons_bulk_assert {idx : Option Nat} {i : Nat} (re : Bool)
    {l : List ToolRequirement} {resolver : Resolver}
    (rest : List (Nat × Resolver)) {st : ResolveState}
    {f : List ToolRequirement → List Dependency}
    (hskip : ¬skipResolver idx i = true)
    (hshort : ¬st.mapping.length = l.length)
    (hb : (if st.mapping.length = 0 then resolver.resolve_all else none) = some f)
    (he : (f l).isEmpty = false) (hlen : ¬(f l).length = l.length) :
    chainWalk idx re l ((i, resolver) :: rest) st =
      .error "assert len(dependencies) == len(resolvable_requirements)" := by
  rw [chainWalk_cons, if_neg hskip, if_neg hshort, hb]
  show (if (f l).isEmpty then _ else _) = _
  rw [he]
  show (if (f l).length = l.length then _ else _) = _
  rw [if_neg hlen]

/-! ### Lemmas about the bulk `zip` insertion and the full loop -/

theorem odMem_zipfold {pairs m : List (ToolRequirement × Dependency)}
    {k : ToolRequirement}
    (h : odMem k (pairs.foldl (fun m p => odInsert m p.1 p.2) m) = true) :
    odMem k m = true ∨ k ∈ pairs.map Prod.fst := by
  induction pairs generalizing m with
  | nil => exact Or.inl h
  | cons p ps ih =>
    rw [List.foldl_cons] at h
    rcases ih h with h' | h'
    · rcases odMem_odInsert h' with h'' | h''
      · exact Or.inl h''
      · exact Or.inr (by simp [h''])
    · exact Or.inr (by simp [h'])

theorem keys_map_replace (k : ToolRequirement) (v : Dependency)
    (m : List (ToolRequirement × Dependency)) :
    (m.map (fun p => if p.1 = k then (k, v) else p)).map Prod.fst =
      m.map Prod.fst := by
  induction m with
  | nil => rfl
  | cons p m ih =>
    by_cases hp : p.1 = k
    · simp only [List.map_cons, hp, if_true, ih]
    · simp [hp, ih]

theorem odInsert_keys_of_mem {k : ToolRequirement}
    {m : List (ToolRequirement × Dependency)} (v : Dependency)
    (hm : odMem k m = true) :
    (odInsert m k v).map Prod.fst = m.map Prod.fst := by
  simp only [odInsert, hm, if_true]
  exact keys_map_replace k v m

theorem odInsert_keys_nodup {k : ToolRequirement}
    {m : List (ToolRequirement × Dependency)} (v : Dependency)
    (h : (m.map Prod.fst).Nodup) : ((odInsert m k v).map Prod.fst).Nodup := by
  by_cases hm : odMem k m = true
  · rw [odInsert_keys_of_mem v hm]
    exact h
  · rw [odInsert_of_not_mem v (by simpa using hm), List.map_append]
    simp only [List.map_cons, List.map_nil]
    rw [List.nodup_append]
    refine ⟨h, List.nodup_singleton k, ?_⟩
    intro x hxk hxq
    simp only [List.mem_singleton] at hxq
    subst hxq
    rw [(odMem_keys x m).mpr hxk] at hm
    exact hm rfl

theorem zipfold_keys_nodup (pairs : List (ToolRequirement × Dependency))
    {m : List (ToolRequirement × Dependency)} (h : (m.map Prod.fst).Nodup) :
    (((pairs.foldl (fun m p => odInsert m p.1 p.2) m)).map Prod.fst).Nodup := by
  induction pairs generalizing m with
  | nil => exact h
  | cons p ps ih =>
    rw [List.foldl_cons]
    exact ih (odInsert_keys_nodup p.2 h)

theorem chainWalk_ok_extends (idx : Option Nat) (re : Bool)
    (l : List ToolRequirement) (ps : List (Nat × Resolver)) :
    ∀ st st' : ResolveState, chainWalk idx re l ps st = .ok st' →
      (∃ t, st'.mapping = st.mapping ++ t) ∧ ∃ c, st'.calls = st.calls ++ c := by
  induction ps with
  | nil =>
    intro st st' h
    have h' : Except.ok (ε := String) st = .ok st' := h
    cases h'
    exact ⟨⟨[], by simp⟩, ⟨[], by simp⟩⟩
  | cons p rest ih =>
    obtain ⟨i, resolver⟩ := p
    intro st st' h
    by_cases hskip : skipResolver idx i = true
    · rw [chainWalk_cons_skip re l resolver rest st hskip] at h
      exact ih st st' h
    · by_cases hshort : st.mapping.length = l.length
      · rw [chainWalk_cons_short re resolver rest hskip hshort] at h
        cases h
        exact ⟨⟨[], by simp⟩, ⟨[], by simp⟩⟩
      · have individual : chainWalk idx re l rest
            (individualPass re i resolver l st) = .ok st' →
            (∃ t, st'.mapping = st.mapping ++ t) ∧ ∃ c, st'.calls = st.calls ++ c := by
          intro h'
          obtain ⟨⟨t, et⟩, ⟨c, ec⟩⟩ := ih _ st' h'
          obtain ⟨new, en, -⟩ := individualPass_mapping re i resolver l st
          obtain ⟨nc, enc, -⟩ := individualPass_calls re i resolver l st
          exact ⟨⟨new ++ t, by rw [et, en, List.append_assoc]⟩,
            ⟨nc ++ c, by rw [ec, enc, List.append_assoc]⟩⟩
        rcases e : (if st.mapping.length = 0 then resolver.resolve_all else none)
            with _ | f
        · rw [chainWalk_cons_individual re rest hskip hshort e] at h
          exact individual h
        · have hlen0 : st.mapping.length = 0 := by
            by_contra h0
            rw [if_neg h0] at e
            cases e
          have hmap : st.mapping = [] := List.length_eq_zero.mp hlen0
          by_cases hemp : (f l).isEmpty = true
          · rw [chainWalk_cons_bulk_empty re rest hskip hshort e hemp] at h
            exact individual h
          · by_cases hflen : (f l).length = l.length
            · rw [chainWalk_cons_bulk_zip re rest hskip hshort e
                (by simpa using hemp) hflen] at h
              cases h
              refine ⟨⟨(l.zip (f l)).foldl (fun m p => odInsert m p.1 p.2) st.mapping, ?_⟩,
                ⟨[], by simp⟩⟩
              rw [hmap]
              simp
            · rw [chainWalk_cons_bulk_assert re rest hskip hshort e
                (by simpa using hemp) hflen] at h
              cases h

theorem chainWalk_preserves (idx : Option Nat) (re : Bool)
    (l : List ToolRequirement) (ps : List (Nat × Resolver)) :
    ∀ st st' : ResolveState, ∀ {a : ToolRequirement},
      odMem a st.mapping = true → chainWalk idx re l ps st = .ok st' →
      odLookup a st'.mapping = odLookup a st.mapping ∧
        odMem a st'.mapping = true ∧
        ∀ j : Nat, (j, a) ∈ st'.calls → (j, a) ∈ st.calls := by
  induction ps with
  | nil =>
    intro st st' a hm h
    have h' : Except.ok (ε := String) st = .ok st' := h
    cases h'
    exact ⟨rfl, hm, fun _ hc => hc⟩
  | cons p rest ih =>
    obtain ⟨i, resolver⟩ := p
    intro st st' a hm h
    by_cases hskip : skipResolver idx i = true
    · rw [chainWalk_cons_skip re l resolver rest st hskip] at h
      exact ih st st' hm h
    · by_cases hshort : st.mapping.length = l.length
      · rw [chainWalk_cons_short re resolver rest hskip hshort] at h
        cases h
        exact ⟨rfl, hm, fun _ hc => hc⟩
      · have hlen0 : ¬st.mapping.length = 0 := by
          intro h0
          rw [List.length_eq_zero.mp h0] at hm
          cases hm
        have e : (if st.mapping.length = 0 then resolver.resolve_all else none) = none :=
          if_neg hlen0
        rw [chainWalk_cons_individual re rest hskip hshort e] at h
        have hm1 := individualPass_mem_of_mem re i resolver l st hm
        obtain ⟨lk1, mem1, calls1⟩ := ih _ st' hm1 h
        refine ⟨?_, mem1, ?_⟩
        · rw [lk1, (individualPass_lookup_of_mem re i resolver l st hm).1]
        · intro j hc
          exact individualPass_no_new_call_of_mem re i resolver l st hm
            (calls1 j hc)

theorem chainWalk_scope (idx : Option Nat) (re : Bool)
    (l : List ToolRequirement) (ps : List (Nat × Resolver)) :
    ∀ st st' : ResolveState,
      (∀ k, odMem k st.mapping = true → k ∈ l) →
      (∀ c ∈ st.calls, (c : Nat × ToolRequirement).2 ∈ l) →
      chainWalk idx re l ps st = .ok st' →
      (∀ k, odMem k st'.mapping = true → k ∈ l) ∧
        ∀ c ∈ st'.calls, (c : Nat × ToolRequirement).2 ∈ l := by
  induction ps with
  | nil =>
    intro st st' hk hc h
    have h' : Except.ok (ε := String) st = .ok st' := h
    cases h'
    exact ⟨hk, hc⟩
  | cons p rest ih =>
    obtain ⟨i, resolver⟩ := p
    intro st st' hk hc h
    by_cases hskip : skipResolver idx i = true
    · rw [chainWalk_cons_skip re l resolver rest st hskip] at h
      exact ih st st' hk hc h
    · by_cases hshort : st.mapping.length = l.length
      · rw [chainWalk_cons_short re resolver rest hskip hshort] at h
        cases h
        exact ⟨hk, hc⟩
      · have step : ∀ st₁ : ResolveState,
            (∀ k, odMem k st₁.mapping = true → k ∈ l) →
            (∀ c ∈ st₁.calls, (c : Nat × ToolRequirement).2 ∈ l) →
            chainWalk idx re l rest (individualPass re i resolver l st₁) = .ok st' →
            (∀ k, odMem k st'.mapping = true → k ∈ l) ∧
              ∀ c ∈ st'.calls, (c : Nat × ToolRequirement).2 ∈ l := by
          intro st₁ hk1 hc1 h'
          refine ih _ st' ?_ ?_ h'
          · intro k hkm
            rcases individualPass_mem_subset re i resolver l st₁ hkm with hh | hh
            · exact hk1 k hh
            · exact hh
          · intro c hcm
            obtain ⟨nc, enc, pnc⟩ := individualPass_calls re i resolver l st₁
            rw [enc] at hcm
            rcases List.mem_append.mp hcm with hh | hh
            · exact hc1 c hh
            · exact (pnc c hh).2.1
        rcases e : (if st.mapping.length = 0 then resolver.resolve_all else none)
            with _ | f
        · rw [chainWalk_cons_individual re rest hskip hshort e] at h
          exact step st hk hc h
        · have hlen0 : st.mapping.length = 0 := by
            by_contra h0
            rw [if_neg h0] at e
            cases e
          have hmap : st.mapping = [] := List.length_eq_zero.mp hlen0
          by_cases hemp : (f l).isEmpty = true
          · rw [chainWalk_cons_bulk_empty re rest hskip hshort e hemp] at h
            exact step st hk hc h
          · by_cases hflen : (f l).length = l.length
            · rw [chainWalk_cons_bulk_zip re rest hskip hshort e
                (by simpa using hemp) hflen] at h
              cases h
              constructor
              · intro k hkm
                simp only at hkm
                rcases odMem_zipfold hkm with hh | hh
                · exact hk k hh
                · obtain ⟨pz, hpz, hfst⟩ := List.mem_map.mp hh
                  subst hfst
                  exact (List.of_mem_zip hpz).1
              · exact hc
            · rw [chainWalk_cons_bulk_assert re rest hskip hshort e
                (by simpa using hemp) hflen] at h
              cases h

/-- Core induction for exactness filtering: if every resolver in the
(indexed) chain lacks bulk resolution and answers requirement `A` inexactly,
then under `require_exact` the walk succeeds, `A` stays unresolved, and every
resolver in the chain was consulted for `A`. -/
theorem chainWalk_exact_unresolved (l : List ToolRequirement)
    (ps : List (Nat × Resolver)) {A : ToolRequirement}
    (hA : A ∈ l) (ht : (A.type == "package" || A.type == "set_environment") = true) :
    ∀ st : ResolveState,
      (∀ p ∈ ps, (p : Nat × Resolver).2.resolve_all = none) →
      (∀ p ∈ ps, ((p : Nat × Resolver).2.resolve A.name A.version A.type).exact = false) →
      odMem A st.mapping = false →
      (st.mapping.map Prod.fst).Nodup →
      (∀ k, odMem k st.mapping = true → k ∈ l) →
      ∃ st', chainWalk none true l ps st = .ok st' ∧
        odMem A st'.mapping = false ∧
        (∀ p ∈ ps, ((p : Nat × Resolver).1, A) ∈ st'.calls) ∧
        ∃ c, st'.calls = st.calls ++ c := by
  induction ps with
  | nil =>
    intro st _ _ hm _ _
    exact ⟨st, chainWalk_nil none true l st, hm, by simp, ⟨[], by simp⟩⟩
  | cons p rest ih =>
    obtain ⟨i, resolver⟩ := p
    intro st hra hre hm hnd hsub
    have hskip : ¬skipResolver none i = true := by simp [skipResolver]
    have hshort : ¬st.mapping.length = l.length :=
      length_ne_of_unresolved hnd hsub hA hm
    have e : (if st.mapping.length = 0 then resolver.resolve_all else none) = none := by
      by_cases h0 : st.mapping.length = 0
      · rw [if_pos h0]
        exact hra (i, resolver) (by simp)
      · exact if_neg h0
    rw [chainWalk_cons_individual true rest hskip hshort e]
    have hre0 : (resolver.resolve A.name A.version A.type).exact = false :=
      hre (i, resolver) (by simp)
    have hm1 : odMem A (individualPass true i resolver l st).mapping = false :=
      individualPass_exact_unresolved i resolver l st hre0 hm
    have hnd1 := individualPass_keys_nodup true i resolver l st hnd
    have hsub1 : ∀ k, odMem k (individualPass true i resolver l st).mapping = true →
        k ∈ l := by
      intro k hk
      rcases individualPass_mem_subset true i resolver l st hk with h | h
      · exact hsub k h
      · exact h
    obtain ⟨st', hcw, hm', hcalls', ⟨c, hc⟩⟩ := ih (individualPass true i resolver l st)
      (fun p hp => hra p (List.mem_cons_of_mem _ hp))
      (fun p hp => hre p (List.mem_cons_of_mem _ hp)) hm1 hnd1 hsub1
    refine ⟨st', hcw, hm', ?_, ?_⟩
    · intro p hp
      rcases List.mem_cons.mp hp with rfl | hp'
      · rcases individualPass_covers true i resolver l st hA ht with hmm | hcall
        · rw [hmm] at hm
          cases hm
        · rw [hc]
          exact List.mem_append.mpr (Or.inl hcall)
      · exact hcalls' p hp'
    · obtain ⟨nc, enc, -⟩ := individualPass_calls true i resolver l st
      exact ⟨nc ++ c, by rw [hc, enc, List.append_assoc]⟩

/-- Unfolding of `build_cache` once the resolution outcome is known. -/
theorem build_cache_eq (dependency_resolvers : List Resolver)
    (tool_dependency_cache_dir : String) (requirements : List ToolRequirement)
    (index : Option Nat) (require_exact : Bool) (force_rebuild : Bool)
    (fs : FileSystem) (st : ResolveState)
    (hres : requirements_to_dependencies_dict dependency_resolvers requirements
      index require_exact = .ok st) :
    build_cache dependency_resolvers tool_dependency_cache_dir requirements
        index require_exact force_rebuild fs =
      (let resolved_dependencies := st.mapping.map (fun p => p.2)
       let cacheable_dependencies := resolved_dependencies.filter
         (fun dep => dep.cacheable)
       let hashed_dependencies_dir := get_hashed_dependencies_path
         tool_dependency_cache_dir cacheable_dependencies
       let build : FileSystem → List CacheAction →
           FileSystem × List CacheAction := fun fs acts =>
         cacheable_dependencies.foldl
           (fun acc dep =>
             (materializeInto acc.1 dep hashed_dependencies_dir,
               acc.2 ++ [.materialize dep.name hashed_dependencies_dir]))
           (fs, acts)
       if fsExists fs hashed_dependencies_dir then
         if force_rebuild then
           .ok (build (fsRmtree fs hashed_dependencies_dir)
             [.rmtree hashed_dependencies_dir])
         else
           .ok (fs, [])
       else
         .ok (build fs [])) := by
  unfold build_cache
  rw [hres]

/-! ### Concrete requirements, dependencies and resolvers used in
counterexamples and witnesses -/

def reqA : ToolRequirement := ⟨"A", some "1", "package"⟩

def reqB : ToolRequirement := ⟨"B", some "2", "package"⟩

def reqData : ToolRequirement := ⟨"D", none, "data_table"⟩

/-- Resolves only requirement `B` (exactly, cacheable). -/
def resolverBOnly : Resolver :=
  { resolve := fun n v _ =>
      if n = "B" then .resolved n v true (some "tool_shed_packages") true
      else .null n v }

/-- Resolves every requirement exactly as a cacheable conda dependency. -/
def resolverConda : Resolver :=
  { resolve := fun n v _ => .resolved n v true (some "conda") true }

/-- Resolves every requirement, but never exactly. -/
def resolverInexact : Resolver :=
  { resolve := fun n v _ => .resolved n v false (some "galaxy_packages") true }

/-- Bulk-capable resolver whose `resolve_all` returns the empty (falsy) list,
while its single `resolve` answers exactly. -/
def resolverBulkEmpty : Resolver :=
  { resolve := fun n v _ => .resolved n v true (some "conda") true,
    resolve_all := some (fun _ => []) }

/-- Bulk-capable resolver returning two dependencies regardless of input. -/
def resolverBulkTwo : Resolver :=
  { resolve := fun n v _ => .null n v,
    resolve_all := some (fun _ =>
      [.resolved "x" none true (some "conda") true,
       .resolved "y" none true (some "conda") true]) }

/-- Bulk-capable resolver returning exactly one dependency. -/
def resolverBulkOne : Resolver :=
  { resolve := fun n v _ => .null n v,
    resolve_all := some (fun _ => [.resolved "x" none true (some "conda") true]) }

/-- Supports the install capability pair but its installation always fails. -/
def resolverInstallFail : Resolver :=
  { resolve := fun n v _ => .null n v,
    get_targets := some (fun rs => rs.map (fun r => r.name)),
    install_all := some (fun _ => false) }

/-- Supports the install capability pair and its installation succeeds. -/
def resolverInstallOk : Resolver :=
  { resolve := fun n v _ => .null n v,
    get_targets := some (fun rs => rs.map (fun r => r.name)),
    install_all := some (fun _ => true) }

/-! ### The claims -/

/-- C3: during resolution, a bulk `resolve_all` answer that is non-empty but
of the wrong length makes the walk fail loudly with the assertion error (for
any chain continuation), and an answer of the right length is zipped
positionally into the result mapping after which the walk stops immediately:
the result is the same for every chain continuation and contains no
single-resolve calls. -/
theorem c3_bulk_all_or_nothing (r : Resolver)
    (f : List ToolRequirement → List Dependency) (reqs : List ToolRequirement)
    (re : Bool) (hb : r.resolve_all = some f)
    (hl : resolvable_requirements reqs ≠ [])
    (hne : f (resolvable_requirements reqs) ≠ []) :
    ((f (resolvable_requirements reqs)).length ≠
        (resolvable_requirements reqs).length →
      ∀ rest, requirements_to_dependencies_dict (r :: rest) reqs none re =
        .error "assert len(dependencies) == len(resolvable_requirements)") ∧
    ((f (resolvable_requirements reqs)).length =
        (resolvable_requirements reqs).length →
      ∀ rest, requirements_to_dependencies_dict (r :: rest) reqs none re =
        .ok ⟨((resolvable_requirements reqs).zip
            (f (resolvable_requirements reqs))).foldl
            (fun m p => odInsert m p.1 p.2) [], []⟩) := by
  have hskip : ¬skipResolver none 0 = true := by simp [skipResolver]
  have hshort : ¬(ResolveState.mapping ⟨[], []⟩).length =
      (resolvable_requirements reqs).length := by
    simpa using fun h => hl (List.length_eq_zero.mp h.symm)
  have e : (if (ResolveState.mapping ⟨[], []⟩).length = 0 then r.resolve_all
      else none) = some f := by simp [hb]
  have hemp : (f (resolvable_requirements reqs)).isEmpty = false := by
    simpa [List.isEmpty_iff] using hne
  constructor
  · intro hlen rest
    unfold requirements_to_dependencies_dict
    rw [List.enum_cons]
    exact chainWalk_cons_bulk_assert re _ hskip hshort e hemp hlen
  · intro hlen rest
    unfold requirements_to_dependencies_dict
    rw [List.enum_cons]
    exact chainWalk_cons_bulk_zip re _ hskip hshort e hemp hlen

/-- Witness for C3: a one-requirement list against a bulk resolver answering
two dependencies raises the assertion; against a bulk resolver answering one
dependency it zips and stops. -/
theorem c3_bulk_all_or_nothing_witness :
    requirements_to_dependencies_dict [resolverBulkTwo] [reqA] none false =
      .error "assert len(dependencies) == len(resolvable_requirements)" ∧
    requirements_to_dependencies_dict [resolverBulkOne] [reqA] none false =
      .ok ⟨[(reqA, .resolved "x" none true (some "conda") true)], []⟩ :=
  ⟨(c3_bulk_all_or_nothing resolverBulkTwo _ [reqA] false rfl (by decide)
      (by decide)).1 (by decide) [],
   ((c3_bulk_all_or_nothing resolverBulkOne _ [reqA] false rfl (by decide)
      (by decide)).2 (by decide) []).trans (by rfl)⟩

/-- C6: once a requirement has an entry in the mapping, walking any further
resolvers neither changes its entry nor issues any new single-resolve call
for it (first conjunct); concretely, for a chain `[R1, R2]` where `R1`
resolves `A`, the result maps `A` to `R1`'s dependency and only resolver 0
was ever consulted, whatever `R2` would answer (second conjunct). -/
theorem c6_resolver_order_stability :
    (∀ (idx : Option Nat) (re : Bool) (l : List ToolRequirement)
        (ps : List (Nat × Resolver)) (st st' : ResolveState)
        (a : ToolRequirement),
        odMem a st.mapping = true → chainWalk idx re l ps st = .ok st' →
        odLookup a st'.mapping = odLookup a st.mapping ∧
          ∀ j : Nat, (j, a) ∈ st'.calls → (j, a) ∈ st.calls) ∧
    (∀ (R1 R2 : Resolver) (A : ToolRequirement),
        (A.type == "package" || A.type == "set_environment") = true →
        R1.resolve_all = none →
        (R1.resolve A.name A.version A.type).isNull = false →
        requirements_to_dependencies_dict [R1, R2] [A] none false =
          .ok ⟨[(A, R1.resolve A.name A.version A.type)], [(0, A)]⟩) := by
  constructor
  · intro idx re l ps st st' a hm h
    obtain ⟨lk, -, hc⟩ := chainWalk_preserves idx re l ps st st' hm h
    exact ⟨lk, hc⟩
  · intro R1 R2 A ht hb hn
    unfold requirements_to_dependencies_dict
    have hl : resolvable_requirements [A] = [A] := by
      simp [resolvable_requirements, ht]
    rw [hl]
    show chainWalk none false [A] [(0, R1), (1, R2)] ⟨[], []⟩ = _
    have hskip : ¬skipResolver none 0 = true := by simp [skipResolver]
    have hshort : ¬(ResolveState.mapping ⟨[], []⟩).length = [A].length := by simp
    have e : (if (ResolveState.mapping ⟨[], []⟩).length = 0 then R1.resolve_all
        else none) = none := by simp [hb]
    rw [chainWalk_cons_individual false [(1, R2)] hskip hshort e]
    rw [individualPass, individualPass]
    rw [resolveRequirement_insert false 0 R1 ⟨[], []⟩ (by simp [odMem]) ht
      (by simp) hn]
    rw [chainWalk_cons_short false R2 [] (by simp [skipResolver]) (by simp)]
    simp

/-- Witness for C6 at concrete inputs: a pre-resolved entry survives a further
resolver, and the chain `[resolverConda, resolverBOnly]` resolves `A` through
`resolverConda`. -/
theorem c6_resolver_order_stability_witness :
    (odLookup reqA (ResolveState.mapping
        ⟨[(reqA, .resolved "A" (some "1") true (some "conda") true)], []⟩) =
      odLookup reqA [(reqA, .resolved "A" (some "1") true (some "conda") true)] ∧
      ∀ j : Nat, (j, reqA) ∈ (ResolveState.calls
        ⟨[(reqA, .resolved "A" (some "1") true (some "conda") true)], []⟩) →
        (j, reqA) ∈ ([] : List (Nat × ToolRequirement))) ∧
    requirements_to_dependencies_dict [resolverConda, resolverBOnly] [reqA]
        none false =
      .ok ⟨[(reqA, .resolved "A" (some "1") true (some "conda") true)], [(0, reqA)]⟩ :=
  ⟨c6_resolver_order_stability.1 none false [reqA] [(1, resolverBOnly)]
      ⟨[(reqA, .resolved "A" (some "1") true (some "conda") true)], []⟩
      ⟨[(reqA, .resolved "A" (some "1") true (some "conda") true)], []⟩ reqA
      (by decide) (by rfl),
   (c6_resolver_order_stability.2 resolverConda resolverBOnly reqA (by decide)
      rfl (by decide)).trans (by rfl)⟩

/-- C7: with the `exact` option set, a chain of single-capability resolvers
all of which answer requirement `A` inexactly leaves `A` absent from the
result mapping, raises nothing, and still consults every resolver in the
chain for `A` (so an inexact answer never blocks later resolvers). -/
theorem c7_exact_only_filtering (rs : List Resolver) (reqs : List ToolRequirement)
    (A : ToolRequirement) (hA : A ∈ reqs)
    (ht : (A.type == "package" || A.type == "set_environment") = true)
    (hra : ∀ r ∈ rs, r.resolve_all = none)
    (hre : ∀ r ∈ rs, (r.resolve A.name A.version A.type).exact = false) :
    ∃ st', requirements_to_dependencies_dict rs reqs none true = .ok st' ∧
      odMem A st'.mapping = false ∧
      ∀ p ∈ rs.enum, ((p : Nat × Resolver).1, A) ∈ st'.calls := by
  unfold requirements_to_dependencies_dict
  have hAl : A ∈ resolvable_requirements reqs := List.mem_filter.mpr ⟨hA, ht⟩
  obtain ⟨st', h1, h2, h3, -⟩ := chainWalk_exact_unresolved
    (resolvable_requirements reqs) rs.enum hAl ht ⟨[], []⟩
    (fun p hp => hra p.2 (List.snd_mem_of_mem_enum hp))
    (fun p hp => hre p.2 (List.snd_mem_of_mem_enum hp))
    (by simp [odMem]) (by simp)
    (by intro k hk; simp [odMem] at hk)
  exact ⟨st', h1, h2, h3⟩

/-- Witness for C7: one always-inexact resolver, one `package` requirement. -/
theorem c7_exact_only_filtering_witness :
    ∃ st', requirements_to_dependencies_dict [resolverInexact] [reqA] none true =
        .ok st' ∧
      odMem reqA st'.mapping = false ∧
      ∀ p ∈ ([resolverInexact] : List Resolver).enum,
        ((p : Nat × Resolver).1, reqA) ∈ st'.calls :=
  c7_exact_only_filtering [resolverInexact] [reqA] reqA (by simp) (by decide)
    (by
      intro r hr
      rw [List.mem_singleton] at hr
      subst hr
      rfl)
    (by
      intro r hr
      rw [List.mem_singleton] at hr
      subst hr
      rfl)

/-- C8: every key of the result mapping, and every requirement ever passed to
a resolver's single `resolve`, is an input requirement of resolvable type
(`package` or `set_environment`). -/
theorem c8_resolvable_scope (rs : List Resolver) (reqs : List ToolRequirement)
    (idx : Option Nat) (re : Bool) (st' : ResolveState)
    (h : requirements_to_dependencies_dict rs reqs idx re = .ok st') :
    (∀ k, odMem k st'.mapping = true →
        k ∈ reqs ∧ (k.type = "package" ∨ k.type = "set_environment")) ∧
    ∀ c ∈ st'.calls, (c : Nat × ToolRequirement).2 ∈ reqs ∧
      ((c : Nat × ToolRequirement).2.type = "package" ∨
        (c : Nat × ToolRequirement).2.type = "set_environment") := by
  unfold requirements_to_dependencies_dict at h
  obtain ⟨hk, hc⟩ := chainWalk_scope idx re (resolvable_requirements reqs)
    rs.enum ⟨[], []⟩ st' (by intro k hk; simp [odMem] at hk) (by simp) h
  have resolvable : ∀ x : ToolRequirement, x ∈ resolvable_requirements reqs →
      x ∈ reqs ∧ (x.type = "package" ∨ x.type = "set_environment") := by
    intro x hx
    obtain ⟨h1, h2⟩ := List.mem_filter.mp hx
    refine ⟨h1, ?_⟩
    simpa using h2
  exact ⟨fun k hk' => resolvable k (hk k hk'),
    fun c hc' => resolvable _ (hc c hc')⟩

/-- Witness for C8: a `package` requirement and a `data_table` requirement;
only the former shows up in the mapping and in the call log. -/
theorem c8_resolvable_scope_witness :
    (∀ k, odMem k (ResolveState.mapping
        ⟨[(reqA, .resolved "A" (some "1") true (some "conda") true)],
          [(0, reqA)]⟩) = true →
      k ∈ [reqA, reqData] ∧ (k.type = "package" ∨ k.type = "set_environment")) ∧
    ∀ c ∈ (ResolveState.calls
        ⟨[(reqA, .resolved "A" (some "1") true (some "conda") true)],
          [(0, reqA)]⟩),
      (c : Nat × ToolRequirement).2 ∈ [reqA, reqData] ∧
        ((c : Nat × ToolRequirement).2.type = "package" ∨
          (c : Nat × ToolRequirement).2.type = "set_environment") :=
  c8_resolvable_scope [resolverConda] [reqA, reqData] none false
    ⟨[(reqA, .resolved "A" (some "1") true (some "conda") true)], [(0, reqA)]⟩
    (by rfl)

/-- C10: when the mapping is empty and the first resolver's bulk
`resolve_all` answers the empty (falsy) sequence, the same resolver's single
`resolve` is consulted for every resolvable requirement within the same pass,
and only afterwards is the second resolver consulted: the call log splits
into an index-0 block followed by an index-1 block, with an index-0 call for
every resolvable requirement. -/
theorem c10_empty_bulk_falls_through (R0 R1 : Resolver)
    (reqs : List ToolRequirement) (re : Bool)
    (f : List ToolRequirement → List Dependency)
    (hb : R0.resolve_all = some f)
    (hempty : f (resolvable_requirements reqs) = [])
    (hR1 : R1.resolve_all = none) :
    ∃ st', requirements_to_dependencies_dict [R0, R1] reqs none re = .ok st' ∧
      (∀ x ∈ resolvable_requirements reqs, (0, x) ∈ st'.calls) ∧
      ∃ c0 c1, st'.calls = c0 ++ c1 ∧
        (∀ c ∈ c0, (c : Nat × ToolRequirement).1 = 0) ∧
        (∀ c ∈ c1, (c : Nat × ToolRequirement).1 = 1) := by
  unfold requirements_to_dependencies_dict
  have henum : ([R0, R1] : List Resolver).enum = [(0, R0), (1, R1)] := rfl
  rw [henum]
  by_cases hl0 : resolvable_requirements reqs = []
  · rw [chainWalk_cons_short re R0 [(1, R1)] (by simp [skipResolver])
      (by simp [hl0])]
    refine ⟨⟨[], []⟩, rfl, ?_, [], [], by simp, by simp, by simp⟩
    intro x hx
    rw [hl0] at hx
    cases hx
  · have hshort : ¬(ResolveState.mapping ⟨[], []⟩).length =
        (resolvable_requirements reqs).length := by
      simpa using fun h => hl0 (List.length_eq_zero.mp h.symm)
    have e : (if (ResolveState.mapping ⟨[], []⟩).length = 0 then R0.resolve_all
        else none) = some f := by simp [hb]
    have hemp : (f (resolvable_requirements reqs)).isEmpty = true := by
      simp [hempty]
    rw [chainWalk_cons_bulk_empty re [(1, R1)] (by simp [skipResolver])
      hshort e hemp]
    obtain ⟨nc0, enc0, pnc0⟩ := individualPass_calls re 0 R0
      (resolvable_requirements reqs) ⟨[], []⟩
    have hcov : ∀ x ∈ resolvable_requirements reqs,
        (0, x) ∈ (individualPass re 0 R0 (resolvable_requirements reqs)
          ⟨[], []⟩).calls := by
      intro x hx
      have htx : (x.type == "package" || x.type == "set_environment") = true :=
        (List.mem_filter.mp hx).2
      rcases individualPass_covers re 0 R0 (resolvable_requirements reqs)
          ⟨[], []⟩ hx htx with hmm | hcall
      · simp [odMem] at hmm
      · exact hcall
    have hcalls0 : ∀ c ∈ (individualPass re 0 R0 (resolvable_requirements reqs)
        ⟨[], []⟩).calls, (c : Nat × ToolRequirement).1 = 0 := by
      intro c hc
      rw [enc0, List.nil_append] at hc
      exact (pnc0 c hc).1
    by_cases hs2 : (individualPass re 0 R0 (resolvable_requirements reqs)
        ⟨[], []⟩).mapping.length = (resolvable_requirements reqs).length
    · rw [chainWalk_cons_short re R1 [] (by simp [skipResolver]) hs2]
      exact ⟨_, rfl, hcov, _, [], by simp, hcalls0, by simp⟩
    · have e2 : (if (individualPass re 0 R0 (resolvable_requirements reqs)
          ⟨[], []⟩).mapping.length = 0 then R1.resolve_all else none) = none := by
        by_cases h0 : (individualPass re 0 R0 (resolvable_requirements reqs)
            ⟨[], []⟩).mapping.length = 0
        · rw [if_pos h0]
          exact hR1
        · exact if_neg h0
      rw [chainWalk_cons_individual re [] (by simp [skipResolver]) hs2 e2]
      rw [chainWalk_nil]
      obtain ⟨nc1, enc1, pnc1⟩ := individualPass_calls re 1 R1
        (resolvable_requirements reqs)
        (individualPass re 0 R0 (resolvable_requirements reqs) ⟨[], []⟩)
      refine ⟨_, rfl, ?_, _, nc1, enc1, hcalls0, fun c hc => (pnc1 c hc).1⟩
      intro x hx
      rw [enc1]
      exact List.mem_append.mpr (Or.inl (hcov x hx))

/-- Witness for C10: a bulk resolver answering `[]`, then a plain resolver. -/
theorem c10_empty_bulk_falls_through_witness :
    ∃ st', requirements_to_dependencies_dict [resolverBulkEmpty, resolverConda]
        [reqA] none false = .ok st' ∧
      (∀ x ∈ resolvable_requirements [reqA], (0, x) ∈ st'.calls) ∧
      ∃ c0 c1, st'.calls = c0 ++ c1 ∧
        (∀ c ∈ c0, (c : Nat × ToolRequirement).1 = 0) ∧
        (∀ c ∈ c1, (c : Nat × ToolRequirement).1 = 1) :=
  c10_empty_bulk_falls_through resolverBulkEmpty resolverConda [reqA] false
    (fun _ => []) rfl rfl rfl

/-- C1 (counterexample): with input `[A, B]` and the chain
`[resolverBOnly, resolverConda]`, both requirements end up in the mapping but
`B`'s entry precedes `A`'s even though `A` precedes `B` in the input — the
mapping is NOT in input requirement order across resolver passes. -/
theorem c1_input_order_counterexample :
    (requirements_to_dependencies_dict [resolverBOnly, resolverConda]
        [reqA, reqB] none false).map (fun st => st.mapping.map Prod.fst) =
      .ok [reqB, reqA] ∧ reqA ≠ reqB := by
  constructor
  · rfl
  · decide

/-- C1 (amended): the result mapping is built append-only — each resolver
pass appends its newly resolved entries after all earlier entries, and within
a single pass the appended entries follow the input requirement order (their
key list is a sublist of the resolvable input list). -/
theorem c1_insertion_order_amended :
    (∀ (idx : Option Nat) (re : Bool) (l : List ToolRequirement)
        (ps : List (Nat × Resolver)) (st st' : ResolveState),
        chainWalk idx re l ps st = .ok st' →
        ∃ t, st'.mapping = st.mapping ++ t) ∧
    ∀ (re : Bool) (i : Nat) (r : Resolver) (l : List ToolRequirement)
        (st : ResolveState),
      ∃ new, (individualPass re i r l st).mapping = st.mapping ++ new ∧
        (new.map Prod.fst).Sublist l :=
  ⟨fun idx re l ps st st' h => (chainWalk_ok_extends idx re l ps st st' h).1,
   fun re i r l st => individualPass_mapping re i r l st⟩

/-- Witness for the amended C1 at concrete inputs. -/
theorem c1_insertion_order_amended_witness :
    (∃ t, ResolveState.mapping
        ⟨[(reqB, .resolved "B" (some "2") true (some "tool_shed_packages") true),
          (reqA, .resolved "A" (some "1") true (some "conda") true)],
          [(0, reqA), (0, reqB), (1, reqA)]⟩ =
      ResolveState.mapping ⟨[], []⟩ ++ t) ∧
    ∃ new, (individualPass false 0 resolverBOnly [reqA, reqB]
        ⟨[], []⟩).mapping = ResolveState.mapping ⟨[], []⟩ ++ new ∧
      (new.map Prod.fst).Sublist [reqA, reqB] :=
  ⟨c1_insertion_order_amended.1 none false
      (resolvable_requirements [reqA, reqB])
      ([resolverBOnly, resolverConda] : List Resolver).enum ⟨[], []⟩ _ (by rfl),
   c1_insertion_order_amended.2 false 0 resolverBOnly [reqA, reqB] ⟨[], []⟩⟩

/-- C2 (counterexample): `install_all` does fall back to a second capable
resolver — the first capable resolver's installation fails, yet the call
returns `true` because the next capable resolver succeeds (the claim says it
must return `false` without trying a second resolver). -/
theorem c2_install_all_counterexample :
    install_all [resolverInstallFail, resolverInstallOk] [reqA] = true ∧
    ∃ gt ia, resolverInstallFail.get_targets = some gt ∧
      resolverInstallFail.install_all = some ia ∧ ia (gt [reqA]) = false :=
  ⟨rfl, ⟨_, _, rfl, rfl, rfl⟩⟩

/-- C2 (amended): `install_all` scans the chain in order and attempts
installation with EVERY resolver supporting both capabilities until one
succeeds: it returns `true` iff some capable resolver's installation (on
targets computed from the full requirement list) succeeds, `false` only when
every capable resolver fails or none exists. -/
theorem c2_install_all_amended (rs : List Resolver)
    (reqs : List ToolRequirement) :
    install_all rs reqs = rs.any (fun r =>
      match r.get_targets, r.install_all with
      | some gt, some ia => ia (gt reqs)
      | _, _ => false) := by
  induction rs with
  | nil => rfl
  | cons r rest ih =>
    obtain ⟨fres, fra, fgt, fia⟩ := r
    rcases fgt with _ | gt <;> rcases fia with _ | ia
    · show install_all rest reqs = (false || rest.any _)
      rw [Bool.false_or]
      exact ih
    · show install_all rest reqs = (false || rest.any _)
      rw [Bool.false_or]
      exact ih
    · show install_all rest reqs = (false || rest.any _)
      rw [Bool.false_or]
      exact ih
    · show (if ia (gt reqs) = true then true else install_all rest reqs) =
        (ia (gt reqs) || rest.any _)
      by_cases hia : ia (gt reqs) = true <;> simp [hia, ih]

/-- C4 (counterexample): `hash_dependencies` does not filter its input to the
cacheable subset — on a single non-cacheable dependency it hashes that
dependency's tuple, which differs from the hash of the (empty) cacheable
subset. -/
theorem c4_hash_filter_counterexample :
    List.filter (fun dep => dep.cacheable)
        [Dependency.resolved "x" (some "1") true (some "galaxy_packages") false] =
      [] ∧
    hash_dependencies
        [Dependency.resolved "x" (some "1") true (some "galaxy_packages") false] ≠
      hash_dependencies (List.filter (fun dep => dep.cacheable)
        [Dependency.resolved "x" (some "1") true (some "galaxy_packages") false]) := by
  constructor
  · rfl
  · decide

/-- C4 (amended): `hash_dependencies` hashes the tuples of ALL dependencies
given to it; hashing commutes with the cacheable filter only when every input
dependency is cacheable (its callers guarantee this by pre-filtering), and a
non-cacheable dependency in the input does change the hash. -/
theorem c4_hash_no_filter_amended :
    (∀ l : List Dependency, (∀ d ∈ l, d.cacheable = true) →
      hash_dependencies (l.filter (fun dep => dep.cacheable)) =
        hash_dependencies l) ∧
    hash_dependencies
        [Dependency.resolved "s" (some "1") true (some "conda") true,
         Dependency.resolved "n" (some "2") true (some "conda") false] ≠
      hash_dependencies
        [Dependency.resolved "s" (some "1") true (some "conda") true] := by
  constructor
  · intro l hl
    rw [List.filter_eq_self.mpr hl]
  · decide

/-- Witness for the amended C4 at a concrete all-cacheable list. -/
theorem c4_hash_no_filter_amended_witness :
    hash_dependencies
        (List.filter (fun dep => dep.cacheable)
          [Dependency.resolved "s" (some "1") true (some "conda") true]) =
      hash_dependencies
        [Dependency.resolved "s" (some "1") true (some "conda") true] :=
  c4_hash_no_filter_amended.1
    [Dependency.resolved "s" (some "1") true (some "conda") true] (by decide)

/-- C5: the cache hash is invariant under permutation of the input list,
determined by the multiset of `(name, version, exact, dependency_type)`
tuples alone, and changing one dependency's version changes the hash. -/
theorem c5_hash_determinism :
    (∀ l l' : List Dependency, l.Perm l' →
        hash_dependencies l = hash_dependencies l') ∧
    (∀ l l' : List Dependency,
        ((l.map dependencyTuple : List DepTuple) : Multiset DepTuple) =
          ((l'.map dependencyTuple : List DepTuple) : Multiset DepTuple) →
        hash_dependencies l = hash_dependencies l') ∧
    hash_dependencies
        [Dependency.resolved "samtools" (some "1.3") true (some "conda") true] ≠
      hash_dependencies
        [Dependency.resolved "samtools" (some "1.4") true (some "conda") true] := by
  have key : ∀ l l' : List Dependency,
      (l.map dependencyTuple).Perm (l'.map dependencyTuple) →
      hash_dependencies l = hash_dependencies l' := by
    intro l l' h
    simp only [hash_dependencies]
    rw [sortTuples_eq_of_perm h]
  exact ⟨fun l l' h => key l l' (h.map _),
    fun l l' h => key l l' (Multiset.coe_eq_coe.mp h), by decide⟩

/-- Witness for C5: swapping two dependencies leaves the hash unchanged. -/
theorem c5_hash_determinism_witness :
    hash_dependencies
        [Dependency.resolved "samtools" (some "1.3") true (some "conda") true,
         Dependency.resolved "bwa" (some "0.7") true (some "conda") true] =
      hash_dependencies
        [Dependency.resolved "bwa" (some "0.7") true (some "conda") true,
         Dependency.resolved "samtools" (some "1.3") true (some "conda") true] :=
  c5_hash_determinism.1 _ _ (List.Perm.swap _ _ _)

/-- C9: if the hashed cache directory for the resolved cacheable dependency
set already exists and `force_rebuild` is false, `build_cache` returns with
the filesystem unchanged and performs no deletion and no materialization. -/
theorem c9_build_cache_idempotent (rs : List Resolver) (cacheDir : String)
    (reqs : List ToolRequirement) (idx : Option Nat) (re : Bool)
    (fs : FileSystem) (st : ResolveState)
    (hres : requirements_to_dependencies_dict rs reqs idx re = .ok st)
    (hex : fsExists fs (get_hashed_dependencies_path cacheDir
      ((st.mapping.map (fun p => p.2)).filter (fun dep => dep.cacheable))) = true) :
    build_cache rs cacheDir reqs idx re false fs = .ok (fs, []) := by
  rw [build_cache_eq rs cacheDir reqs idx re false fs st hres]
  simp only [hex, if_true, Bool.false_eq_true, if_false]

/-- Witness for C9: a conda-resolved cacheable dependency whose hashed cache
directory is already present. -/
theorem c9_build_cache_idempotent_witness :
    build_cache [resolverConda] "/cache" [reqA] none false false
        [(get_hashed_dependencies_path "/cache"
          [.resolved "A" (some "1") true (some "conda") true], ["A"])] =
      .ok ([(get_hashed_dependencies_path "/cache"
          [.resolved "A" (some "1") true (some "conda") true], ["A"])], []) :=
  c9_build_cache_idempotent [resolverConda] "/cache" [reqA] none false
    [(get_hashed_dependencies_path "/cache"
      [.resolved "A" (some "1") true (some "conda") true], ["A"])]
    ⟨[(reqA, .resolved "A" (some "1") true (some "conda") true)], [(0, reqA)]⟩
    (by rfl) (by decide)

end GalaxyDeps
